import Mathlib

/-!
Verification of the moving-average stream filter (`breakout2_solution.py`)
and the string-wrapping decorators (`breakout1_solution.py`).

The Python generators are embedded as functions over finite input lists.
Numeric values are modelled exactly by `ℚ` (the Python inputs are integers
and the emitted averages are exact divisions under exact arithmetic).
A generator run is collapsed into a `RunResult`: the list of values yielded,
the number of stream elements consumed, and the runtime error (if any) that
terminated the run.
-/

set_option autoImplicit false

/-- Runtime errors the Python code can raise while the generator runs:
`valueError` models the `ValueError` raised by `deque(maxlen=w)` for negative
`w`; `zeroDivisionError` models `ZeroDivisionError` from dividing by
`len(window)` when the window is empty. -/
inductive PyError where
  | valueError : PyError
  | zeroDivisionError : PyError
deriving DecidableEq, Repr

/-- Result of exhausting one of the generator functions over a finite stream:
the yielded outputs (in order), how many stream elements were consumed, and
the error that aborted the run, if any. -/
structure RunResult where
  outputs : List ℚ
  consumed : Nat
  error : Option PyError
deriving DecidableEq, Repr

/-- One `window.append(value)` on a `deque(maxlen=W)` (from `moving_average`,
line 69): the value goes on the right, and if the deque would exceed its
`maxlen` the leftmost element is dropped automatically. -/
def maStepWindow (W : Nat) (window : List ℚ) (v : ℚ) : List ℚ :=
  let w := window ++ [v]
  if W < w.length then w.tail else w

/-- The `for value in stream` loop body of `moving_average` (lines 66-78):
append to the bounded deque, then yield `sum(window) / len(window)`.
A zero-length window at the division raises `ZeroDivisionError`. -/
def maLoop (W : Nat) (window : List ℚ) : List ℚ → RunResult
  | [] => ⟨[], 0, none⟩
  | v :: rest =>
    let w := maStepWindow W window v
    if w.length = 0 then ⟨[], 1, some PyError.zeroDivisionError⟩
    else
      let r := maLoop W w rest
      ⟨(w.sum / (w.length : ℚ)) :: r.outputs, r.consumed + 1, r.error⟩

/-- `moving_average(stream, window_size)` (lines 26-78), run to exhaustion on
a finite stream. `deque(maxlen=window_size)` raises `ValueError` for a
negative `window_size` before the loop consumes anything; otherwise the loop
runs with the bound `window_size`. -/
def moving_average (stream : List ℚ) (window_size : Int) : RunResult :=
  if window_size < 0 then ⟨[], 0, some PyError.valueError⟩
  else maLoop window_size.toNat [] stream

/-- One iteration's window update in `moving_average_explicit` (lines
102-108): unconditional append, then `popleft` if `len(window) > window_size`
(an `Int` comparison, since `window_size` is a Python int). -/
def maExpStep (window_size : Int) (window : List ℚ) (v : ℚ) : List ℚ :=
  let w := window ++ [v]
  if window_size < (w.length : Int) then w.tail else w

/-- The loop of `moving_average_explicit` (lines 102-112). -/
def maExpLoop (window_size : Int) (window : List ℚ) : List ℚ → RunResult
  | [] => ⟨[], 0, none⟩
  | v :: rest =>
    let w := maExpStep window_size window v
    if w.length = 0 then ⟨[], 1, some PyError.zeroDivisionError⟩
    else
      let r := maExpLoop window_size w rest
      ⟨(w.sum / (w.length : ℚ)) :: r.outputs, r.consumed + 1, r.error⟩

/-- `moving_average_explicit(stream, window_size)` (lines 85-112): the window
starts as an unbounded empty deque. -/
def moving_average_explicit (stream : List ℚ) (window_size : Int) : RunResult :=
  maExpLoop window_size [] stream

/-- The state update of `moving_average_optimized` for one input value (lines
138-146): the state is the pair `(window, running_sum)`; append the value and
add it to the running sum, then if `len(window) > window_size` pop the oldest
value and subtract it from the running sum. -/
def optStep (window_size : Int) (st : List ℚ × ℚ) (v : ℚ) : List ℚ × ℚ :=
  let w1 := st.1 ++ [v]
  let s1 := st.2 + v
  if window_size < (w1.length : Int) then (w1.tail, s1 - w1.headD 0) else (w1, s1)

/-- The loop of `moving_average_optimized` (lines 138-150): update the state
with `optStep`, then yield `running_sum / len(window)`. -/
def maOptLoop (window_size : Int) (window : List ℚ) (running_sum : ℚ) :
    List ℚ → RunResult
  | [] => ⟨[], 0, none⟩
  | v :: rest =>
    let st := optStep window_size (window, running_sum) v
    if st.1.length = 0 then ⟨[], 1, some PyError.zeroDivisionError⟩
    else
      let r := maOptLoop window_size st.1 st.2 rest
      ⟨(st.2 / (st.1.length : ℚ)) :: r.outputs, r.consumed + 1, r.error⟩

/-- `moving_average_optimized(stream, window_size)` (lines 119-150): the
window starts empty and `running_sum = 0`. -/
def moving_average_optimized (stream : List ℚ) (window_size : Int) : RunResult :=
  maOptLoop window_size [] 0 stream

/-- The last `n` elements of a list (the contents of a sliding window of
capacity `n` after the whole list has been pushed through it). -/
def lastN {α : Type} (n : Nat) (l : List α) : List α :=
  l.drop (l.length - n)

/-- Reference description of the outputs of all three moving-average
variants for a valid window bound: at each step the window becomes the last
`W` values seen so far and the output is its exact mean. -/
def idealOutputs (W : Nat) (window : List ℚ) : List ℚ → List ℚ
  | [] => []
  | v :: rest =>
    let w := lastN W (window ++ [v])
    (w.sum / (w.length : ℚ)) :: idealOutputs W w rest

/-- The `shout` decorator (`breakout1_solution.py`, lines 21-65): the wrapper
calls the decorated function, upper-cases the result and appends `"!!!"`.
The function's arguments are abstracted as one value of an arbitrary type. -/
def shout {α : Type} (func : α → String) : α → String :=
  fun a => (func a).toUpper ++ "!!!"

/-- The `style(prefix, suffix)` decorator factory (`breakout1_solution.py`,
lines 72-132): the wrapper returns `f"{prefix}{result}{suffix}"` where
`result` is the decorated function's return value. (`pre`/`suf` stand for
the Python parameters `prefix`/`suffix`.) -/
def style {α : Type} (pre suf : String) (func : α → String) : α → String :=
  fun a => pre ++ func a ++ suf

example : moving_average [1, 2, 3, 4, 5, 6, 7] 3
    = ⟨[1, 3/2, 2, 3, 4, 5, 6], 7, none⟩ := by
  norm_num [moving_average, maLoop, maStepWindow]

example : moving_average [1] 0 = ⟨[], 1, some PyError.zeroDivisionError⟩ := by
  norm_num [moving_average, maLoop, maStepWindow]

example : moving_average [1, 2] (-1) = ⟨[], 0, some PyError.valueError⟩ := by
  norm_num [moving_average]

example : moving_average_optimized [1, 2, 3, 4, 5, 6, 7] 3
    = ⟨[1, 3/2, 2, 3, 4, 5, 6], 7, none⟩ := by
  norm_num [moving_average_optimized, maOptLoop, optStep]

/-! ### Lemmas about `lastN` -/

lemma lastN_length {α : Type} (n : Nat) (l : List α) :
    (lastN n l).length = min n l.length := by
  simp only [lastN, List.length_drop]
  omega

lemma lastN_of_length_le {α : Type} (n : Nat) (l : List α) (h : l.length ≤ n) :
    lastN n l = l := by
  simp [lastN, Nat.sub_eq_zero_of_le h]

lemma lastN_drop {α : Type} (n m : Nat) (l : List α) (h : m + n ≤ l.length) :
    lastN n (l.drop m) = lastN n l := by
  simp only [lastN, List.drop_drop, List.length_drop]
  congr 1
  omega

lemma lastN_append_lastN {α : Type} (n : Nat) (xs ys : List α) :
    lastN n (lastN n xs ++ ys) = lastN n (xs ++ ys) := by
  by_cases h : xs.length ≤ n
  · rw [lastN_of_length_le n xs h]
  · push_neg at h
    have hk : xs.length - n ≤ xs.length := Nat.sub_le _ _
    rw [show lastN n xs ++ ys = (xs ++ ys).drop (xs.length - n) by
      rw [List.drop_append_of_le_length hk]; rfl]
    rw [lastN_drop]
    rw [List.length_append]
    omega

lemma lastN_one_append {α : Type} (l : List α) (v : α) :
    lastN 1 (l ++ [v]) = [v] := by
  have : lastN 1 (l ++ [v]) = (l ++ [v]).drop l.length := by
    simp only [lastN, List.length_append]
    rfl
  rw [this, List.drop_left]

/-! ### The bounded window step computes the last `W` values -/

lemma maStepWindow_eq_lastN (W : Nat) (window : List ℚ) (v : ℚ)
    (h : window.length ≤ W) :
    maStepWindow W window v = lastN W (window ++ [v]) := by
  unfold maStepWindow lastN
  by_cases hlt : W < (window ++ [v]).length
  · simp only [if_pos hlt]
    have hlen : (window ++ [v]).length = W + 1 := by
      simp only [List.length_append, List.length_singleton] at hlt ⊢
      omega
    rw [hlen]
    simp [← List.drop_one]
  · simp only [if_neg hlt]
    simp only [List.length_append, List.length_singleton] at hlt
    have h0 : window.length + 1 - W = 0 := by omega
    simp [h0]

lemma maStepWindow_length_le (W : Nat) (window : List ℚ) (v : ℚ)
    (h : window.length ≤ W) :
    (maStepWindow W window v).length ≤ W := by
  rw [maStepWindow_eq_lastN W window v h, lastN_length]
  omega

lemma maStepWindow_ne_nil (W : Nat) (hW : 1 ≤ W) (window : List ℚ) (v : ℚ)
    (h : window.length ≤ W) :
    maStepWindow W window v ≠ [] := by
  rw [maStepWindow_eq_lastN W window v h]
  intro hc
  have := lastN_length W (window ++ [v])
  rw [hc] at this
  simp only [List.length_nil, List.length_append, List.length_singleton] at this
  omega

/-! ### All three loops compute `idealOutputs` when the window bound is valid -/

lemma idealOutputs_length (W : Nat) (window stream : List ℚ) :
    (idealOutputs W window stream).length = stream.length := by
  induction stream generalizing window with
  | nil => rfl
  | cons v rest ih => simp [idealOutputs, ih]

lemma maLoop_run (W : Nat) (hW : 1 ≤ W) (stream : List ℚ) :
    ∀ window : List ℚ, window.length ≤ W →
      maLoop W window stream = ⟨idealOutputs W window stream, stream.length, none⟩ := by
  induction stream with
  | nil => intro window h; rfl
  | cons v rest ih =>
    intro window h
    have hw := maStepWindow_eq_lastN W window v h
    have hne := maStepWindow_ne_nil W hW window v h
    have hle := maStepWindow_length_le W window v h
    simp only [maLoop, idealOutputs]
    rw [if_neg (by simpa [List.length_eq_zero] using hne), ih _ hle, hw]
    simp

lemma maExpStep_eq_maStepWindow (window_size : Int) (h : 0 ≤ window_size)
    (window : List ℚ) (v : ℚ) :
    maExpStep window_size window v = maStepWindow window_size.toNat window v := by
  unfold maExpStep maStepWindow
  by_cases hc : window_size < ((window ++ [v]).length : Int)
  · rw [if_pos hc, if_pos (by omega)]
  · rw [if_neg hc, if_neg (by omega)]

lemma maExpLoop_run (window_size : Int) (hW : 1 ≤ window_size) (stream : List ℚ) :
    ∀ window : List ℚ, window.length ≤ window_size.toNat →
      maExpLoop window_size window stream
        = ⟨idealOutputs window_size.toNat window stream, stream.length, none⟩ := by
  induction stream with
  | nil => intro window h; rfl
  | cons v rest ih =>
    intro window h
    have h0 : 0 ≤ window_size := by omega
    have hW1 : 1 ≤ window_size.toNat := by omega
    have he := maExpStep_eq_maStepWindow window_size h0 window v
    have hw := maStepWindow_eq_lastN window_size.toNat window v h
    have hne := maStepWindow_ne_nil window_size.toNat hW1 window v h
    have hle := maStepWindow_length_le window_size.toNat window v h
    simp only [maExpLoop, idealOutputs, he]
    rw [if_neg (by simpa [List.length_eq_zero] using hne), ih _ hle, hw]
    simp

lemma sum_tail_eq (l : List ℚ) (h : l ≠ []) : l.tail.sum = l.sum - l.headD 0 := by
  cases l with
  | nil => exact absurd rfl h
  | cons x xs => simp [List.sum_cons]

lemma optStep_eq (window_size : Int) (window : List ℚ) (v : ℚ) :
    optStep window_size (window, window.sum) v
      = (maExpStep window_size window v, (maExpStep window_size window v).sum) := by
  unfold optStep maExpStep
  by_cases hc : window_size < ((window ++ [v]).length : Int)
  · simp only [if_pos hc]
    have hne : window ++ [v] ≠ [] := by simp
    rw [Prod.mk.injEq]
    refine ⟨rfl, ?_⟩
    rw [sum_tail_eq _ hne]
    simp [List.sum_append]
  · simp only [if_neg hc]
    rw [Prod.mk.injEq]
    exact ⟨rfl, by simp [List.sum_append]⟩

lemma maOptLoop_run (window_size : Int) (hW : 1 ≤ window_size) (stream : List ℚ) :
    ∀ window : List ℚ, window.length ≤ window_size.toNat →
      maOptLoop window_size window window.sum stream
        = ⟨idealOutputs window_size.toNat window stream, stream.length, none⟩ := by
  induction stream with
  | nil => intro window h; rfl
  | cons v rest ih =>
    intro window h
    have h0 : 0 ≤ window_size := by omega
    have hW1 : 1 ≤ window_size.toNat := by omega
    have he := maExpStep_eq_maStepWindow window_size h0 window v
    have hw := maStepWindow_eq_lastN window_size.toNat window v h
    have hne := maStepWindow_ne_nil window_size.toNat hW1 window v h
    have hle := maStepWindow_length_le window_size.toNat window v h
    simp only [maOptLoop, optStep_eq, he]
    rw [if_neg (by simpa [List.length_eq_zero] using hne), ih _ hle]
    simp only [idealOutputs, hw]
    simp

lemma moving_average_run (W : Int) (hW : 1 ≤ W) (stream : List ℚ) :
    moving_average stream W = ⟨idealOutputs W.toNat [] stream, stream.length, none⟩ := by
  unfold moving_average
  rw [if_neg (by omega)]
  exact maLoop_run W.toNat (by omega) stream [] (by simp)

lemma moving_average_explicit_run (W : Int) (hW : 1 ≤ W) (stream : List ℚ) :
    moving_average_explicit stream W
      = ⟨idealOutputs W.toNat [] stream, stream.length, none⟩ :=
  maExpLoop_run W hW stream [] (by simp)

lemma moving_average_optimized_run (W : Int) (hW : 1 ≤ W) (stream : List ℚ) :
    moving_average_optimized stream W
      = ⟨idealOutputs W.toNat [] stream, stream.length, none⟩ := by
  have h := maOptLoop_run W hW stream [] (by simp)
  simpa [moving_average_optimized] using h

lemma idealOutputs_getElem? (W : Nat) (stream : List ℚ) :
    ∀ (i : Nat) (window : List ℚ), i < stream.length →
      (idealOutputs W window stream)[i]?
        = some ((lastN W (window ++ stream.take (i+1))).sum
            / ((lastN W (window ++ stream.take (i+1))).length : ℚ)) := by
  induction stream with
  | nil => intro i window hi; simp at hi
  | cons v rest ih =>
    intro i window hi
    cases i with
    | zero =>
      simp [idealOutputs]
    | succ i =>
      have hi' : i < rest.length := by simpa using hi
      simp only [idealOutputs, List.getElem?_cons_succ]
      rw [ih i _ hi']
      rw [lastN_append_lastN]
      have hrw : window ++ (v :: rest).take (i + 1 + 1)
          = (window ++ [v]) ++ rest.take (i + 1) := by
        show window ++ (v :: rest.take (i + 1)) = _
        rw [List.append_cons]
      rw [hrw]

/-! ### Claim theorems -/

/-- C1: for every window size `W ≥ 1` and every input stream, once at least
`W` values have been consumed, the output at position `i` equals the exact
arithmetic mean of the most recent `W` input values ending at that position
(the window there holds exactly `W` values); in particular the documented
scenario: input `[1, 2, 3, 4, 5, 6, 7]` with `W = 3` yields
`[1, 3/2, 2, 3, 4, 5, 6]`. -/
theorem moving_average_full_window_mean (W : Int) (stream : List ℚ) (i : Nat)
    (hW : 1 ≤ W) (hi : i < stream.length) (hfull : W.toNat ≤ i + 1) :
    (moving_average stream W).outputs[i]?
        = some ((lastN W.toNat (stream.take (i+1))).sum / (W : ℚ))
      ∧ (lastN W.toNat (stream.take (i+1))).length = W.toNat
      ∧ (moving_average [1, 2, 3, 4, 5, 6, 7] 3).outputs
          = [1, 3/2, 2, 3, 4, 5, 6] := by
  have hlen : (lastN W.toNat (stream.take (i+1))).length = W.toNat := by
    rw [lastN_length, List.length_take]
    omega
  refine ⟨?_, hlen, ?_⟩
  · rw [moving_average_run W hW stream]
    show (idealOutputs W.toNat [] stream)[i]? = _
    rw [idealOutputs_getElem? W.toNat stream i [] hi]
    simp only [List.nil_append]
    rw [hlen]
    have hcast : ((W.toNat : ℚ)) = (W : ℚ) := by
      exact_mod_cast Int.toNat_of_nonneg (by omega : (0:Int) ≤ W)
    rw [hcast]
  · norm_num [moving_average, maLoop, maStepWindow]

/-- C1 witness: the general statement applied at `W = 3`,
`stream = [1, 2, 3, 4, 5, 6, 7]`, position `i = 4`. -/
theorem moving_average_full_window_mean_witness :
    (moving_average [1, 2, 3, 4, 5, 6, 7] 3).outputs[4]?
        = some ((lastN (Int.toNat 3) (([1, 2, 3, 4, 5, 6, 7] : List ℚ).take 5)).sum
            / ((3 : Int) : ℚ))
      ∧ (lastN (Int.toNat 3) (([1, 2, 3, 4, 5, 6, 7] : List ℚ).take 5)).length
          = Int.toNat 3
      ∧ (moving_average [1, 2, 3, 4, 5, 6, 7] 3).outputs
          = [1, 3/2, 2, 3, 4, 5, 6] :=
  moving_average_full_window_mean 3 [1, 2, 3, 4, 5, 6, 7] 4
    (by norm_num) (by norm_num) (by norm_num)

/-- C2: the code does not validate the window size. At `window_size = 0` on
the stream `[1]` it consumes the first element and then raises
`ZeroDivisionError` (not an invalid-argument error, and not before consuming
input); only a negative `window_size` produces a `ValueError`, from the
`deque` constructor. -/
theorem moving_average_no_window_validation :
    moving_average [1] 0 = ⟨[], 1, some PyError.zeroDivisionError⟩
      ∧ moving_average [1] (-1) = ⟨[], 0, some PyError.valueError⟩
      ∧ moving_average [] 0 = ⟨[], 0, none⟩ := by
  refine ⟨?_, ?_, ?_⟩
  · norm_num [moving_average, maLoop, maStepWindow]
  · norm_num [moving_average]
  · norm_num [moving_average, maLoop]

/-- C3: for every window size `W ≥ 1` and every finite input stream, the
output has exactly the input's length and the run raises no error; in
particular the empty input yields the empty output with no error. -/
theorem moving_average_length_eq (W : Int) (stream : List ℚ) (hW : 1 ≤ W) :
    (moving_average stream W).outputs.length = stream.length
      ∧ (moving_average stream W).error = none
      ∧ moving_average [] W = ⟨[], 0, none⟩ := by
  refine ⟨?_, ?_, ?_⟩
  · rw [moving_average_run W hW stream]
    exact idealOutputs_length _ _ _
  · rw [moving_average_run W hW stream]
  · rw [moving_average_run W hW []]
    rfl

/-- C3 witness: the statement applied at `W = 2`, `stream = [5, 7]`. -/
theorem moving_average_length_eq_witness :
    (moving_average [5, 7] 2).outputs.length = ([5, 7] : List ℚ).length
      ∧ (moving_average [5, 7] 2).error = none
      ∧ moving_average [] 2 = ⟨[], 0, none⟩ :=
  moving_average_length_eq 2 [5, 7] (by norm_num)

/-- C4: for every window size `W ≥ 1` and every non-empty input stream, the
first output value equals the first input value (warm-up averages over the
values seen so far). -/
theorem moving_average_first_output (W : Int) (v : ℚ) (rest : List ℚ)
    (hW : 1 ≤ W) :
    (moving_average (v :: rest) W).outputs.head? = some v := by
  rw [moving_average_run W hW]
  show (idealOutputs W.toNat [] (v :: rest)).head? = some v
  simp only [idealOutputs, List.head?_cons]
  have h1 : lastN W.toNat (([] : List ℚ) ++ [v]) = [v] :=
    lastN_of_length_le _ _ (by simp; omega)
  rw [h1]
  norm_num

/-- C4 witness: the statement applied at `W = 3`, stream `10 :: [2]`. -/
theorem moving_average_first_output_witness :
    (moving_average ((10 : ℚ) :: [2]) 3).outputs.head? = some (10 : ℚ) :=
  moving_average_first_output 3 10 [2] (by norm_num)

/-- C5: for every window size `W ≥ 1`, the three implementations
`moving_average`, `moving_average_explicit` and `moving_average_optimized`
produce identical results (outputs, elements consumed, and absence of
errors) on identical input streams, under exact arithmetic. -/
theorem moving_average_variants_agree (W : Int) (stream : List ℚ)
    (hW : 1 ≤ W) :
    moving_average stream W = moving_average_explicit stream W
      ∧ moving_average stream W = moving_average_optimized stream W := by
  rw [moving_average_run W hW stream, moving_average_explicit_run W hW stream,
    moving_average_optimized_run W hW stream]
  exact ⟨rfl, rfl⟩

/-- C5 witness: the statement applied at `W = 3`, `stream = [1, 2, 3, 4]`. -/
theorem moving_average_variants_agree_witness :
    moving_average [1, 2, 3, 4] 3 = moving_average_explicit [1, 2, 3, 4] 3
      ∧ moving_average [1, 2, 3, 4] 3 = moving_average_optimized [1, 2, 3, 4] 3 :=
  moving_average_variants_agree 3 [1, 2, 3, 4] (by norm_num)

lemma optStep_preserves (W : Int) (st : List ℚ × ℚ) (v : ℚ)
    (hW : 1 ≤ W) (h1 : st.2 = st.1.sum) (h2 : (st.1.length : Int) ≤ W) :
    (optStep W st v).2 = (optStep W st v).1.sum
      ∧ ((optStep W st v).1.length : Int) ≤ W := by
  obtain ⟨window, s⟩ := st
  simp only at h1 h2
  subst h1
  rw [optStep_eq]
  refine ⟨rfl, ?_⟩
  rw [maExpStep_eq_maStepWindow W (by omega) window v]
  have h := maStepWindow_length_le W.toNat window v (by omega)
  simp only
  omega

lemma foldl_optStep_invariant (W : Int) (hW : 1 ≤ W) (stream : List ℚ) :
    ∀ st : List ℚ × ℚ, st.2 = st.1.sum → (st.1.length : Int) ≤ W →
      (stream.foldl (optStep W) st).2 = (stream.foldl (optStep W) st).1.sum
        ∧ ((stream.foldl (optStep W) st).1.length : Int) ≤ W := by
  induction stream with
  | nil => intro st h1 h2; exact ⟨h1, h2⟩
  | cons v rest ih =>
    intro st h1 h2
    have h := optStep_preserves W st v hW h1 h2
    simpa [List.foldl_cons] using ih _ h.1 h.2

/-- C6: in `moving_average_optimized` with window size `W ≥ 1`, after
processing each input element (i.e. after folding `optStep` over any finite
stream from the initial state) the invariant holds: `running_sum` equals the
sum of the values currently in the window, and the window holds at most `W`
values. -/
theorem moving_average_optimized_invariant (W : Int) (stream : List ℚ)
    (hW : 1 ≤ W) :
    (stream.foldl (optStep W) ([], 0)).2
        = (stream.foldl (optStep W) ([], 0)).1.sum
      ∧ ((stream.foldl (optStep W) ([], 0)).1.length : Int) ≤ W :=
  foldl_optStep_invariant W hW stream ([], 0) (by simp) (by simp; omega)

/-- C6 witness: the invariant applied at `W = 2`, `stream = [1, 2, 3]`. -/
theorem moving_average_optimized_invariant_witness :
    (([1, 2, 3] : List ℚ).foldl (optStep 2) ([], 0)).2
        = (([1, 2, 3] : List ℚ).foldl (optStep 2) ([], 0)).1.sum
      ∧ ((([1, 2, 3] : List ℚ).foldl (optStep 2) ([], 0)).1.length : Int) ≤ 2 :=
  moving_average_optimized_invariant 2 [1, 2, 3] (by norm_num)

lemma idealOutputs_one (stream : List ℚ) :
    ∀ window : List ℚ, idealOutputs 1 window stream = stream := by
  induction stream with
  | nil => intro window; rfl
  | cons v rest ih =>
    intro window
    simp only [idealOutputs, lastN_one_append]
    rw [ih]
    norm_num

/-- C7: for window size `W = 1`, the output sequence of `moving_average`
equals the input sequence exactly (the filter is the identity). -/
theorem moving_average_window_one_identity (stream : List ℚ) :
    (moving_average stream 1).outputs = stream := by
  rw [moving_average_run 1 (by norm_num) stream]
  exact idealOutputs_one stream []

/-- C8: under the precondition `W ≥ 1`, the divisor of every emitted average
is nonzero: the window after any append step is non-empty (so
`len(window) ≠ 0` wherever `sum/len` is computed), and none of the three
implementations ever raises an error — in particular `ZeroDivisionError` is
unreachable. -/
theorem moving_average_div_safe (W : Int) (stream window : List ℚ) (v : ℚ)
    (hW : 1 ≤ W) (hwin : window.length ≤ W.toNat) :
    maStepWindow W.toNat window v ≠ []
      ∧ (moving_average stream W).error = none
      ∧ (moving_average_explicit stream W).error = none
      ∧ (moving_average_optimized stream W).error = none := by
  refine ⟨maStepWindow_ne_nil W.toNat (by omega) window v hwin, ?_, ?_, ?_⟩
  · rw [moving_average_run W hW stream]
  · rw [moving_average_explicit_run W hW stream]
  · rw [moving_average_optimized_run W hW stream]

/-- C8 witness: the statement applied at `W = 3`, `stream = [1, 2]`,
window `[1]`, incoming value `2`. -/
theorem moving_average_div_safe_witness :
    maStepWindow (Int.toNat 3) [1] 2 ≠ []
      ∧ (moving_average [1, 2] 3).error = none
      ∧ (moving_average_explicit [1, 2] 3).error = none
      ∧ (moving_average_optimized [1, 2] 3).error = none :=
  moving_average_div_safe 3 [1, 2] [1] 2 (by norm_num) (by norm_num)

/-- C9: for every decorated function `func` (arguments abstracted as one
value of an arbitrary type) the function returned by `shout` yields the
original result converted to uppercase with `"!!!"` appended. -/
theorem shout_spec (α : Type) (func : α → String) (a : α) :
    shout func a = (func a).toUpper ++ "!!!" :=
  rfl

/-- C10: for every pair of strings, every decorated function `func` and all
arguments, the function returned by `style` yields the original result with
the first string prepended and the second appended, the original result
unchanged in the middle. -/
theorem style_spec (α : Type) (pre suf : String) (func : α → String) (a : α) :
    style pre suf func a = pre ++ func a ++ suf :=
  rfl
